import Mathlib

/-!
Verification of the Metis replayer (`src/replay.c`): a shallow embedding of
its record tokenizer, deterministic payload generator, unmount retry
controller, replay driver loop, growable record store and `mkdir_p`
bootstrap routine, together with theorems settling the specification
claims about them.

Conventions of the embedding:
* C strings are `List Char`; buffers are maps `Nat → Nat` (byte index to
  byte value `< 256`) and in-place writes are traces `List (Nat × Nat)` of
  (index, byte) stores applied left to right.
* Machine integers are `Nat`/`Int` with explicit `% 2^32` (resp. `% 256`)
  where the C code truncates.
* External effects (the `umount2`/`mkdir`/`creat`/`write` primitives, the
  allocator, `rand`) are oracle parameters supplied to the embedded
  functions, so every definition stays executable.
-/

set_option maxRecDepth 10000

/-- Delimiter set `", "` hard-coded in `replay.c` for `strtok(NULL, ", ")`
and used by `main` for the initial call as well. -/
def commaSpace : List Char := [',', ' ']

/-- One `strtok` step: skip leading delimiter characters; if nothing is
left return `none`, otherwise return the maximal delimiter-free prefix
(the token) together with the rest of the string positioned *after* the
single delimiter character that `strtok` overwrites with NUL (or the empty
rest when the token ran to the end of the string). -/
def strtok_step (delim : List Char) (s : List Char) : Option (List Char × List Char) :=
  let r := s.dropWhile (fun c => c ∈ delim)
  match r with
  | [] => none
  | _ :: _ =>
    let tok := r.takeWhile (fun c => ¬ c ∈ delim)
    let rest := r.dropWhile (fun c => ¬ c ∈ delim)
    some (tok, rest.tail)

lemma dropWhile_head_false (p : Char → Bool) :
    ∀ (s : List Char) (c : Char) (cr : List Char),
      s.dropWhile p = c :: cr → p c = false := by
  intro s
  induction s with
  | nil => intro c cr h; simp [List.dropWhile] at h
  | cons a t ih =>
    intro c cr h
    by_cases ha : p a
    · rw [List.dropWhile_cons_of_pos ha] at h
      exact ih c cr h
    · rw [List.dropWhile_cons_of_neg ha] at h
      cases h
      simpa using ha

lemma length_dropWhile_le (p : Char → Bool) (l : List Char) :
    (l.dropWhile p).length ≤ l.length := by
  induction l with
  | nil => simp
  | cons a t ih =>
    by_cases h : p a
    · rw [List.dropWhile_cons_of_pos h]; simpa using Nat.le_succ_of_le ih
    · rw [List.dropWhile_cons_of_neg h]

lemma strtok_step_rest_length_lt (delim : List Char) (s tok rest : List Char)
    (h : strtok_step delim s = some (tok, rest)) : rest.length < s.length := by
  unfold strtok_step at h
  rcases hr : s.dropWhile (fun c => c ∈ delim) with _ | ⟨c, cr⟩
  · rw [hr] at h; simp at h
  · rw [hr] at h
    simp only [Option.some.injEq, Prod.mk.injEq] at h
    have hc : (fun c => decide (c ∈ delim)) c = false :=
      dropWhile_head_false _ s c cr hr
    have hrest : rest = ((c :: cr).dropWhile (fun c => ¬ c ∈ delim)).tail := by
      rw [← h.2]
    have hdw : (c :: cr).dropWhile (fun c => ¬ c ∈ delim) =
        cr.dropWhile (fun c => ¬ c ∈ delim) := by
      apply List.dropWhile_cons_of_pos
      simpa using hc
    have h1 : rest.length ≤ cr.length := by
      rw [hrest, hdw]
      calc (cr.dropWhile (fun c => ¬ c ∈ delim)).tail.length
          ≤ (cr.dropWhile (fun c => ¬ c ∈ delim)).length := by
            cases cr.dropWhile (fun c => ¬ c ∈ delim) <;> simp
        _ ≤ cr.length := length_dropWhile_le _ _
    have h2 : (c :: cr).length ≤ s.length := by
      rw [← hr]; exact length_dropWhile_le _ _
    simp at h2
    omega

/-- Fuel-indexed form of the `strtok(NULL, ", ")` loop of `extract_fields`;
each step strictly shrinks the string, so any fuel above the string length
computes the loop's result (`extract_go_congr`). -/
def extract_go : Nat → List Char → List (List Char)
  | 0, _ => []
  | fuel+1, s =>
    match strtok_step commaSpace s with
    | none => []
    | some (tok, rest) => tok :: extract_go fuel rest

lemma extract_go_congr :
    ∀ (f1 f2 : Nat) (s : List Char), s.length < f1 → s.length < f2 →
      extract_go f1 s = extract_go f2 s := by
  intro f1
  induction f1 with
  | zero => intro f2 s h1 _; omega
  | succ f ih =>
    intro f2 s _ h2
    cases f2 with
    | zero => omega
    | succ g =>
      cases hst : strtok_step commaSpace s with
      | none => simp [extract_go, hst]
      | some pr =>
        rcases pr with ⟨tok, rest⟩
        have := strtok_step_rest_length_lt _ _ _ _ hst
        simp only [extract_go, hst]
        exact congrArg _ (ih g rest (by omega) (by omega))

/-- Tokenizing loop of `extract_fields` after the first token: repeated
`strtok(NULL, ", ")` calls, collecting a heap copy of every token.
Models lines 133–141 of `replay.c`. -/
def extract_rest (s : List Char) : List (List Char) :=
  extract_go (s.length + 1) s

/-- `extract_fields(fields_vec, line, delim)` as the list of field copies
it appends, in order: the first `strtok(line, delim)` call uses the given
delimiter set, every subsequent call the hard-coded set `", "`
(`replay.c` lines 129–142). -/
def extract_fields (delim : List Char) (line : List Char) : List (List Char) :=
  match strtok_step delim line with
  | none => []
  | some (tok, rest) => tok :: extract_rest rest

lemma extract_rest_none {s : List Char} (h : strtok_step commaSpace s = none) :
    extract_rest s = [] := by
  simp [extract_rest, extract_go, h]

lemma extract_rest_some {s tok rest : List Char}
    (h : strtok_step commaSpace s = some (tok, rest)) :
    extract_rest s = tok :: extract_rest rest := by
  have hlt := strtok_step_rest_length_lt _ _ _ _ h
  show extract_go (s.length + 1) s = tok :: extract_go (rest.length + 1) rest
  rw [show extract_go (s.length + 1) s = tok :: extract_go s.length rest from by
    simp [extract_go, h]]
  exact congrArg _ (extract_go_congr s.length (rest.length + 1) rest
    (by omega) (by omega))

/-- Splitting a string at every character satisfying `p`, keeping the
(possibly empty) chunks between delimiters.  This is the spec-side notion
of "delimiter-separated fields". -/
def splitP (p : Char → Bool) : List Char → List (List Char)
  | [] => [[]]
  | c :: l =>
    if p c then [] :: splitP p l
    else
      match splitP p l with
      | [] => [[c]]
      | f :: fs => (c :: f) :: fs

/-- Modelled from the spec ("produce an ordered sequence of independently
owned copies of each delimiter-separated, non-empty field, preserving
original order"): the non-empty delimiter-separated fields of a line. -/
def fields_spec (delim : List Char) (line : List Char) : List (List Char) :=
  (splitP (fun c => c ∈ delim) line).filter (fun f => ¬ f = [])

lemma splitP_ne_nil (p : Char → Bool) (l : List Char) : splitP p l ≠ [] := by
  cases l with
  | nil => simp [splitP]
  | cons c t =>
    by_cases h : p c
    · simp [splitP, h]
    · simp only [splitP, h, if_false]
      rcases splitP p t with _ | ⟨f, fs⟩ <;> simp

lemma fields_spec_cons_delim (delim : List Char) (c : Char) (l : List Char)
    (h : c ∈ delim) : fields_spec delim (c :: l) = fields_spec delim l := by
  simp [fields_spec, splitP, h]

lemma fields_spec_dropWhile (delim : List Char) (l : List Char) :
    fields_spec delim (l.dropWhile (fun c => c ∈ delim)) = fields_spec delim l := by
  induction l with
  | nil => simp
  | cons c t ih =>
    by_cases h : c ∈ delim
    · rw [List.dropWhile_cons_of_pos (by simpa using h), ih,
        fields_spec_cons_delim delim c t h]
    · rw [List.dropWhile_cons_of_neg (by simpa using h)]

lemma splitP_all_nondelim (p : Char → Bool) :
    ∀ (r : List Char), (∀ c ∈ r, p c = false) → splitP p r = [r] := by
  intro r
  induction r with
  | nil => intro _; rfl
  | cons c t ih =>
    intro h
    have hc : p c = false := h c (by simp)
    have ht : splitP p t = [t] := ih (fun x hx => h x (by simp [hx]))
    simp [splitP, hc, ht]

lemma splitP_append_delim (p : Char → Bool) (d : Char) (t : List Char)
    (hd : p d = true) :
    ∀ (tok : List Char), (∀ c ∈ tok, p c = false) →
      splitP p (tok ++ d :: t) = tok :: splitP p t := by
  intro tok
  induction tok with
  | nil => intro _; simp [splitP, hd]
  | cons c ctok ih =>
    intro h
    have hc : p c = false := h c (by simp)
    have ht := ih (fun x hx => h x (by simp [hx]))
    simp [splitP, hc, List.append_eq, ht]

lemma takeWhile_nondelim_all (delim : List Char) (r : List Char) :
    ∀ c ∈ r.takeWhile (fun c => ¬ c ∈ delim), c ∉ delim := by
  intro c hc
  have := List.all_takeWhile (p := fun c => decide ¬ c ∈ delim) (l := r)
  rw [List.all_eq_true] at this
  simpa using this c hc

lemma extract_rest_eq_aux :
    ∀ (n : Nat) (l : List Char), l.length ≤ n →
      extract_rest l = fields_spec commaSpace l := by
  intro n
  induction n with
  | zero =>
    intro l hl
    have : l = [] := by cases l with | nil => rfl | cons a t => simp at hl
    subst this
    rw [extract_rest_none (by rfl)]
    simp [fields_spec, splitP]
  | succ n ih =>
    intro l hl
    cases hst : strtok_step commaSpace l with
    | none =>
      rw [extract_rest_none hst]
      have hdw : l.dropWhile (fun c => c ∈ commaSpace) = [] := by
        unfold strtok_step at hst
        rcases hr : l.dropWhile (fun c => c ∈ commaSpace) with _ | ⟨c, cr⟩
        · rfl
        · rw [hr] at hst; simp at hst
      have := fields_spec_dropWhile commaSpace l
      rw [hdw] at this
      rw [← this]
      simp [fields_spec, splitP]
    | some pr =>
      rcases pr with ⟨tok, rest⟩
      rw [extract_rest_some hst]
      have hlen : rest.length < l.length := strtok_step_rest_length_lt _ _ _ _ hst
      have hrec : extract_rest rest = fields_spec commaSpace rest :=
        ih rest (by omega)
      rw [hrec]
      -- dissect the strtok step
      unfold strtok_step at hst
      rcases hr : l.dropWhile (fun c => c ∈ commaSpace) with _ | ⟨c, cr⟩
      · rw [hr] at hst; simp at hst
      · rw [hr] at hst
        simp only [Option.some.injEq, Prod.mk.injEq] at hst
        have hc : c ∉ commaSpace := by
          have := dropWhile_head_false (fun c => decide (c ∈ commaSpace)) l c cr hr
          simpa using this
        set r := (c :: cr) with hrdef
        have htok : tok = r.takeWhile (fun c => ¬ c ∈ commaSpace) := hst.1.symm
        have hrest : rest = (r.dropWhile (fun c => ¬ c ∈ commaSpace)).tail :=
          hst.2.symm
        have htok_ne : tok ≠ [] := by
          rw [htok, hrdef, List.takeWhile_cons_of_pos (by simpa using hc)]
          simp
        have htok_all : ∀ x ∈ tok, x ∉ commaSpace := by
          rw [htok]; exact takeWhile_nondelim_all commaSpace r
        have hfs : fields_spec commaSpace l = fields_spec commaSpace r := by
          rw [← fields_spec_dropWhile commaSpace l, hr]
        rw [hfs]
        have hsplit : r = tok ++ r.dropWhile (fun c => ¬ c ∈ commaSpace) := by
          rw [htok]; exact (List.takeWhile_append_dropWhile _ _).symm
        rcases hdr : r.dropWhile (fun c => ¬ c ∈ commaSpace) with _ | ⟨d, t⟩
        · -- token runs to the end of the string
          have hrtok : r = tok := by rw [hsplit, hdr, List.append_nil]
          have hrest_nil : rest = [] := by rw [hrest, hdr]; rfl
          rw [hrest_nil, hrtok]
          have : splitP (fun c => c ∈ commaSpace) tok = [tok] := by
            apply splitP_all_nondelim
            intro x hx
            simpa using htok_all x hx
          simp [fields_spec, this, htok_ne, splitP]
        · -- a delimiter follows the token
          have hd : d ∈ commaSpace := by
            have := dropWhile_head_false
              (fun c => decide (¬ c ∈ commaSpace)) r d t hdr
            simpa using this
          have hrest_t : rest = t := by rw [hrest, hdr]; rfl
          have hreq : r = tok ++ d :: t := by rw [hsplit, hdr]
          rw [hreq, hrest_t]
          have := splitP_append_delim (fun c => c ∈ commaSpace) d t
            (by simpa using hd) tok (fun x hx => by simpa using htok_all x hx)
          simp [fields_spec, this, htok_ne]

lemma extract_rest_eq (l : List Char) :
    extract_rest l = fields_spec commaSpace l :=
  extract_rest_eq_aux l.length l (Nat.le_refl _)

/-- C8 (corrected): with the delimiter set `", "` that the replayer
actually passes, `extract_fields` produces exactly the ordered sequence of
non-empty delimiter-separated fields of the line, with no empty token from
consecutive delimiters or trailing content.  (As stated over *every*
delimiter set the claim fails, because only the first `strtok` call uses
the given set; all later calls hard-code `", "` — see the
counterexample.) -/
theorem C8_tokenizer_comma_space (line : List Char) :
    extract_fields commaSpace line = fields_spec commaSpace line := by
  have hall := extract_rest_eq line
  cases hst : strtok_step commaSpace line with
  | none =>
    simp only [extract_fields, hst]
    rw [extract_rest_none hst] at hall
    exact hall
  | some pr =>
    rcases pr with ⟨tok, rest⟩
    simp only [extract_fields, hst]
    rw [extract_rest_some hst] at hall
    rw [extract_rest_eq rest]
    rw [extract_rest_eq rest] at hall
    exact hall

/-- C8 counterexample: for delimiter set `";"` and line `"a;b c"`, the
tokenizer does not return the `";"`-separated fields `["a", "b c"]`: after
the first token it splits on the hard-coded `", "` set and yields
`["a", "b", "c"]`. -/
theorem C8_counterexample :
    extract_fields [';'] ("a;b c".toList) = [['a'], ['b'], ['c']] ∧
    fields_spec [';'] ("a;b c".toList) = [['a'], ['b', ' ', 'c']] ∧
    extract_fields [';'] ("a;b c".toList) ≠ fields_spec [';'] ("a;b c".toList) := by
  refine ⟨by decide, by decide, by decide⟩

/-- The four fill policies of `generate_data` (`replay.c` line 127). -/
inductive fill_type where
  | PATTERN
  | ONES
  | BYTE_REPEAT
  | RANDOM_EACH_BYTE
deriving DecidableEq

/-- Trace of byte stores performed by `memset(buffer + start, v, len)`:
byte value `v` at indices `start, …, start+len-1`. -/
def memset_trace (start v len : Nat) : List (Nat × Nat) :=
  (List.range len).map (fun i => (start + i, v))

/-- Trace of the 4 byte stores of a little-endian `int` store
`*(int *)(buffer + base) = v` (x86-64 ABI: `sizeof(int) = 4`,
little-endian). -/
def int_write (base v : Nat) : List (Nat × Nat) :=
  [(base, v % 256), (base + 1, v / 256 % 256),
   (base + 2, v / 65536 % 256), (base + 3, v / 16777216 % 256)]

/-- Byte `j` (little-endian) of a 32-bit value. -/
def byteOf (v j : Nat) : Nat := v / 256 ^ j % 256

/-- Store trace of the `PATTERN` branch of `generate_data` (`replay.c`
lines 167–178): `new_offset = 3 - offset % 4` leading zero bytes, then
`int` stores of `offset/4 + i` at `buffer + new_offset + 4*i` for
`i = 0, …, len/4` *inclusive*. -/
def pattern_trace (len offset : Nat) : List (Nat × Nat) :=
  let pad := 3 - offset % 4
  memset_trace 0 0 pad ++
    (List.range (len / 4 + 1)).flatMap
      (fun i => int_write (pad + 4 * i) ((offset / 4 + i) % 2 ^ 32))

/-- Store trace of the `RANDOM_EACH_BYTE` branch of `generate_data`
(`replay.c` lines 180–190): one `rand()` value `n` stored as a 4-byte
`int` repeatedly; note the loop updates `remaining` before adding
`min(sizeof(int), remaining)` to `i`, exactly as the C code does. -/
def random_go (n : Nat) : Nat → Nat → Nat → List (Nat × Nat)
  | 0, _, _ => []
  | fuel+1, i, remaining =>
    if remaining = 0 then []
    else
      let remaining2 := remaining - min 4 remaining
      int_write i (n % 2 ^ 32) ++ random_go n fuel (i + min 4 remaining2) remaining2

/-- Each pass of the C loop decreases `remaining` by `min(4, remaining) ≥ 1`,
so `remaining` passes of fuel always suffice: `random_go` with fuel
`remaining` computes exactly the loop's store trace. -/
def random_trace (n i remaining : Nat) : List (Nat × Nat) :=
  random_go n remaining i remaining

/-- `generate_data(buffer, len, offset, type, value)` as the trace of byte
stores it performs (`replay.c` lines 155–193).  `value` is the C `int`
argument (`memset` truncates it to an `unsigned char`); `r` is the value
the external `rand()` call returns in the `RANDOM_EACH_BYTE` branch. -/
def generate_data (len offset : Nat) (t : fill_type) (value : Int) (r : Nat) :
    List (Nat × Nat) :=
  match t with
  | .ONES => memset_trace 0 1 len
  | .BYTE_REPEAT => memset_trace 0 (value % 256).toNat len
  | .PATTERN => pattern_trace len offset
  | .RANDOM_EACH_BYTE => random_trace r 0 len

/-- Final contents of a buffer after a trace of byte stores, applied left
to right (later stores win). -/
def apply_writes (buf : Nat → Nat) (ws : List (Nat × Nat)) : Nat → Nat :=
  ws.foldl (fun b w => fun j => if j = w.1 then w.2 else b j) buf

lemma apply_writes_append (buf : Nat → Nat) (l1 l2 : List (Nat × Nat)) :
    apply_writes buf (l1 ++ l2) = apply_writes (apply_writes buf l1) l2 := by
  simp [apply_writes, List.foldl_append]

lemma apply_writes_not_mem {j : Nat} :
    ∀ (ws : List (Nat × Nat)) (buf : Nat → Nat), (∀ w ∈ ws, w.1 ≠ j) →
      apply_writes buf ws j = buf j := by
  intro ws
  induction ws with
  | nil => intro buf _; rfl
  | cons w t ih =>
    intro buf h
    have hw : w.1 ≠ j := h w (by simp)
    have ht : ∀ x ∈ t, x.1 ≠ j := fun x hx => h x (by simp [hx])
    show apply_writes (fun j2 => if j2 = w.1 then w.2 else buf j2) t j = buf j
    rw [ih _ ht]
    exact if_neg (fun hj => hw hj.symm)

lemma apply_memset (buf : Nat → Nat) (start v : Nat) :
    ∀ (len j : Nat),
      apply_writes buf (memset_trace start v len) j =
        if start ≤ j ∧ j < start + len then v else buf j := by
  intro len
  induction len with
  | zero =>
    intro j
    rw [if_neg (by omega)]
    rfl
  | succ n ih =>
    intro j
    have hsplit : memset_trace start v (n + 1) =
        memset_trace start v n ++ [(start + n, v)] := by
      simp [memset_trace, List.range_succ]
    rw [hsplit, apply_writes_append]
    show (if j = start + n then v else apply_writes buf (memset_trace start v n) j) =
      if start ≤ j ∧ j < start + (n + 1) then v else buf j
    by_cases hj : j = start + n
    · rw [if_pos hj, if_pos (by omega)]
    · rw [if_neg hj, ih j]
      by_cases hcond : start ≤ j ∧ j < start + n
      · rw [if_pos hcond, if_pos (by omega)]
      · rw [if_neg hcond, if_neg (by omega)]

lemma int_write_fst (base v : Nat) :
    ∀ w ∈ int_write base v, ∃ t, t < 4 ∧ w.1 = base + t := by
  intro w hw
  simp only [int_write, List.mem_cons, List.not_mem_nil, or_false] at hw
  rcases hw with rfl | rfl | rfl | rfl
  · exact ⟨0, by omega, by simp⟩
  · exact ⟨1, by omega, rfl⟩
  · exact ⟨2, by omega, rfl⟩
  · exact ⟨3, by omega, rfl⟩

lemma apply_int_write (buf : Nat → Nat) (base v : Nat) :
    ∀ j, j < 4 →
      apply_writes buf (int_write base v) (base + j) = byteOf v j := by
  intro j hj
  show (if base + j = base + 3 then v / 16777216 % 256
    else if base + j = base + 2 then v / 65536 % 256
    else if base + j = base + 1 then v / 256 % 256
    else if base + j = base then v % 256
    else buf (base + j)) = byteOf v j
  interval_cases j
  · rw [if_neg (by omega), if_neg (by omega), if_neg (by omega),
      if_pos (by omega)]
    simp [byteOf]
  · rw [if_neg (by omega), if_neg (by omega), if_pos rfl]
    simp [byteOf]
  · rw [if_neg (by omega), if_pos rfl]
    simp [byteOf]
  · rw [if_pos rfl]
    simp [byteOf]

lemma apply_pattern_ints (pad off : Nat) :
    ∀ (n : Nat) (buf : Nat → Nat) (k j : Nat), k < n → j < 4 →
      apply_writes buf
          ((List.range n).flatMap
            (fun i => int_write (pad + 4 * i) ((off + i) % 2 ^ 32)))
          (pad + 4 * k + j) =
        byteOf ((off + k) % 2 ^ 32) j := by
  intro n
  induction n with
  | zero => intro buf k j hk _; omega
  | succ m ih =>
    intro buf k j hk hj
    rw [List.range_succ, List.flatMap_append, apply_writes_append]
    by_cases hkm : k = m
    · subst hkm
      have hsing : ([k].flatMap (fun i => int_write (pad + 4 * i) ((off + i) % 2 ^ 32))) =
          int_write (pad + 4 * k) ((off + k) % 2 ^ 32) := by
        simp
      rw [hsing]
      exact apply_int_write _ _ _ j hj
    · have hklt : k < m := by omega
      have hnot : ∀ w ∈ ([m].flatMap
          (fun i => int_write (pad + 4 * i) ((off + i) % 2 ^ 32))),
          w.1 ≠ pad + 4 * k + j := by
        intro w hw
        simp only [List.flatMap_cons, List.flatMap_nil, List.append_nil] at hw
        obtain ⟨t, ht, hwt⟩ := int_write_fst _ _ w hw
        omega
      rw [apply_writes_not_mem _ _ hnot]
      exact ih buf k j hklt hj

/-- Little-endian decoding of the 4 bytes stored at
`base, base+1, base+2, base+3` of a buffer: the value of the C `int` an
external verifier reads back. -/
def decode_le (buf : Nat → Nat) (base : Nat) : Nat :=
  buf base + 256 * buf (base + 1) + 65536 * buf (base + 2) +
    16777216 * buf (base + 3)

/-- C2: under the `PATTERN` policy the first `3 - offset % 4` bytes of the
buffer are zero, and the 4-byte integer stored at relative position `k`
after that pad (for `k ≤ len/4`, decoded little-endian as the C code wrote
it) equals `offset/4 + k`. -/
theorem C2_pattern_layout (len offset : Nat) (value : Int) (r : Nat)
    (buf : Nat → Nat) (k : Nat) (hk : k ≤ len / 4)
    (hrange : offset / 4 + k < 2 ^ 32) :
    (∀ i, i < 3 - offset % 4 →
      apply_writes buf (generate_data len offset fill_type.PATTERN value r) i = 0) ∧
    decode_le (apply_writes buf (generate_data len offset fill_type.PATTERN value r))
        (3 - offset % 4 + 4 * k) = offset / 4 + k := by
  have hgen : generate_data len offset fill_type.PATTERN value r =
      memset_trace 0 0 (3 - offset % 4) ++
        (List.range (len / 4 + 1)).flatMap
          (fun i => int_write ((3 - offset % 4) + 4 * i) ((offset / 4 + i) % 2 ^ 32)) := rfl
  constructor
  · intro i hi
    rw [hgen, apply_writes_append]
    rw [apply_writes_not_mem]
    · rw [apply_memset, if_pos (by omega)]
    · intro w hw
      obtain ⟨i2, hi2, hwmem⟩ := List.mem_flatMap.mp hw
      obtain ⟨t, ht, hwt⟩ := int_write_fst _ _ w hwmem
      omega
  · have hbyte : ∀ j, j < 4 →
        apply_writes buf (generate_data len offset fill_type.PATTERN value r)
            ((3 - offset % 4) + 4 * k + j) =
          byteOf ((offset / 4 + k) % 2 ^ 32) j := by
      intro j hj
      rw [hgen, apply_writes_append]
      exact apply_pattern_ints (3 - offset % 4) (offset / 4) (len / 4 + 1) _ k j
        (by omega) hj
    have h0 := hbyte 0 (by omega)
    have h1 := hbyte 1 (by omega)
    have h2 := hbyte 2 (by omega)
    have h3 := hbyte 3 (by omega)
    rw [Nat.add_zero] at h0
    have hmod : (offset / 4 + k) % 2 ^ 32 = offset / 4 + k := Nat.mod_eq_of_lt hrange
    rw [hmod] at h0 h1 h2 h3
    unfold decode_le
    rw [h0, h1, h2, h3]
    unfold byteOf
    norm_num
    omega

/-- C2 witness: for `len = 8`, `offset = 0` the pad is 3 bytes of zero and
the integer at relative position 1 decodes to `0/4 + 1 = 1`. -/
theorem C2_pattern_layout_witness :
    apply_writes (fun _ => 0) (generate_data 8 0 fill_type.PATTERN 0 0) 0 = 0 ∧
    decode_le (apply_writes (fun _ => 0) (generate_data 8 0 fill_type.PATTERN 0 0))
        (3 + 4 * 1) = 1 := by
  have h := C2_pattern_layout 8 0 0 0 (fun _ => 0) 1 (by decide) (by norm_num)
  exact ⟨h.1 0 (by decide), by simpa using h.2⟩

/-- C3: the claim is right and the code is wrong — the `PATTERN` loop runs
`i = 0 … len/4` *inclusive* after shifting the base by the pad, so for
every length and offset it stores a byte at an index `≥ len`, i.e. past
the end of the `len`-byte buffer (no clipping of the final partial integer
is performed); e.g. for `len = 6`, `offset = 0` it stores bytes at indices
6…10. -/
theorem C3_pattern_writes_past_end :
    (∀ (len offset : Nat) (value : Int) (r : Nat),
      ∃ w ∈ generate_data len offset fill_type.PATTERN value r, len ≤ w.1) ∧
    (generate_data 6 0 fill_type.PATTERN 0 0).any (fun w => decide (6 ≤ w.1)) = true := by
  constructor
  · intro len offset value r
    have hgen : generate_data len offset fill_type.PATTERN value r =
        memset_trace 0 0 (3 - offset % 4) ++
          (List.range (len / 4 + 1)).flatMap
            (fun i => int_write ((3 - offset % 4) + 4 * i) ((offset / 4 + i) % 2 ^ 32)) := rfl
    refine ⟨((3 - offset % 4) + 4 * (len / 4) + 3,
      ((offset / 4 + len / 4) % 2 ^ 32) / 16777216 % 256), ?_, by omega⟩
    rw [hgen]
    apply List.mem_append_right
    apply List.mem_flatMap.mpr
    refine ⟨len / 4, List.mem_range.mpr (by omega), ?_⟩
    simp [int_write]
  · decide

/-- C4 (amended): for a fixed (length, offset, policy, value) tuple the
generated store trace — and hence the buffer contents — is identical
across any two invocations for the `ONES`, `BYTE_REPEAT` and `PATTERN`
policies, which do not consult the PRNG.  (Under `RANDOM_EACH_BYTE` the
output additionally depends on the value `rand()` returns, so only
invocations that draw the same value coincide — see the
counterexample.) -/
theorem C4_generate_deterministic (len offset : Nat) (value : Int)
    (r r2 : Nat) (t : fill_type) (h : t ≠ fill_type.RANDOM_EACH_BYTE) :
    generate_data len offset t value r = generate_data len offset t value r2 := by
  cases t with
  | PATTERN => rfl
  | ONES => rfl
  | BYTE_REPEAT => rfl
  | RANDOM_EACH_BYTE => exact absurd rfl h

/-- C4 witness: the `ONES` trace for two different `rand()` values. -/
theorem C4_generate_deterministic_witness :
    generate_data 4 0 fill_type.ONES 0 0 = generate_data 4 0 fill_type.ONES 0 1 :=
  C4_generate_deterministic 4 0 0 0 1 fill_type.ONES (by decide)

/-- C4 counterexample: under `RANDOM_EACH_BYTE` two invocations of
`generate_data` with the same (length, offset, policy, value) tuple but
different `rand()` draws produce different buffer contents, so the output
is not a function of the tuple alone. -/
theorem C4_counterexample :
    apply_writes (fun _ => 0) (generate_data 4 0 fill_type.RANDOM_EACH_BYTE 0 0) 0 ≠
      apply_writes (fun _ => 0) (generate_data 4 0 fill_type.RANDOM_EACH_BYTE 0 1) 0 := by
  decide

/-- Outcome of one `umount2(basepath, 0)` call: success, failure with
`errno == EBUSY`, or failure with any other `errno`. -/
inductive UOutcome where
  | ok
  | busy
  | other
deriving DecidableEq

/-- Microseconds actually slept by the `EBUSY` branch at retry `n`
(`replay.c` lines 510–514): `waitms = 100 * (1 << n)` is computed in
`int` (no overflow for the reachable `n ≤ 18`), but the `usleep` argument
`1000 * waitms` is computed in the 32-bit unsigned `useconds_t`, so the
product wraps modulo `2^32` — from `n = 16` on the process sleeps far
less than the nominal `100 * 2^n` ms (at `n = 18` about 444.6 s instead
of about 26214 s). -/
def busy_sleep_us (n : Nat) : Nat := 1000 * (100 * 2 ^ n) % 2 ^ 32

/-- Total microseconds slept by `k` consecutive `EBUSY` retries starting
at retry number `nr`. -/
def sleep_range : Nat → Nat → Nat
  | _, 0 => 0
  | nr, k+1 => busy_sleep_us nr + sleep_range (nr + 1) k

/-- Loop state of `unmount_all` (`replay.c` lines 490–524): number of
`umount2` calls made so far, `num_retries`, `retry_limit`, total
microseconds passed to `usleep` so far, and the `has_failure` flag. -/
structure UState where
  attempts : Nat
  num_retries : Nat
  retry_limit : Nat
  wait : Nat
  has_failure : Bool
deriving DecidableEq

/-- The `while (retry_limit > 0)` loop of `unmount_all`, driven by the
oracle `f` giving the outcome of each successive `umount2` call.  On
success it breaks; on `EBUSY` it sleeps `busy_sleep_us num_retries`
microseconds (the wrapped `usleep(1000 * waitms)` argument), increments
`num_retries` and decrements `retry_limit`; on any other error it sets
`has_failure` and — having neither broken out nor decremented
`retry_limit` — iterates again.  `fuel` bounds the number of iterations we
unroll; `none` means the loop did not terminate within `fuel`
iterations. -/
def unmount_loop (f : Nat → UOutcome) : Nat → UState → Option UState
  | 0, _ => none
  | fuel+1, st =>
    if st.retry_limit = 0 then some st
    else
      match f st.attempts with
      | .ok => some { st with attempts := st.attempts + 1 }
      | .busy =>
        unmount_loop f fuel
          { attempts := st.attempts + 1, num_retries := st.num_retries + 1,
            retry_limit := st.retry_limit - 1,
            wait := st.wait + busy_sleep_us st.num_retries,
            has_failure := st.has_failure }
      | .other =>
        unmount_loop f fuel
          { st with attempts := st.attempts + 1, has_failure := true }

/-- Observable result of `unmount_all`: how many `umount2` calls were
made, the total microseconds passed to `usleep`, whether it ended in a
failure state, and whether it called `exit(1)` (which it does iff
`has_failure` and `strict`). -/
structure UResult where
  attempts : Nat
  wait : Nat
  has_failure : Bool
  exited : Bool
deriving DecidableEq

/-- `unmount_all(strict)` (`replay.c` lines 490–533): run the retry loop
with `retry_limit = 19`, then fold in the retry-exhaustion check
(`retry_limit == 0`) and the strict exit. -/
def unmount_all (f : Nat → UOutcome) (strict : Bool) (fuel : Nat) :
    Option UResult :=
  (unmount_loop f fuel ⟨0, 0, 19, 0, false⟩).map (fun st =>
    let hf := st.has_failure || decide (st.retry_limit = 0)
    ⟨st.attempts, st.wait, hf, hf && strict⟩)

lemma unmount_loop_busy_run (f : Nat → UOutcome) :
    ∀ (k fuel : Nat) (st : UState),
      (∀ i, i < k → f (st.attempts + i) = UOutcome.busy) →
      k ≤ st.retry_limit → k ≤ fuel →
      unmount_loop f fuel st =
        unmount_loop f (fuel - k)
          ⟨st.attempts + k, st.num_retries + k, st.retry_limit - k,
            st.wait + sleep_range st.num_retries k,
            st.has_failure⟩ := by
  intro k
  induction k with
  | zero =>
    intro fuel st _ _ _
    obtain ⟨a, n, rl, w, hf⟩ := st
    simp [sleep_range]
  | succ m ih =>
    intro fuel st h hrl hfuel
    cases fuel with
    | zero => omega
    | succ fl =>
      have hrl0 : ¬ st.retry_limit = 0 := by omega
      have hf0 : f st.attempts = UOutcome.busy := by
        have := h 0 (by omega)
        simpa using this
      simp only [unmount_loop, if_neg hrl0, hf0]
      rw [ih fl _ ?_ ?_ ?_]
      · dsimp only
        congr 1
        · omega
        · rw [UState.mk.injEq]
          have hw : sleep_range st.num_retries (m + 1) =
              busy_sleep_us st.num_retries + sleep_range (st.num_retries + 1) m := rfl
          refine ⟨by omega, by omega, by omega, by omega, rfl⟩
      · intro i hi
        have he : st.attempts + 1 + i = st.attempts + (i + 1) := by omega
        rw [he]
        exact h (i + 1) (by omega)
      · show m ≤ st.retry_limit - 1
        omega
      · omega

lemma sleep_range_no_wrap :
    ∀ (k nr : Nat), nr + k ≤ 16 →
      sleep_range nr k = 100000 * (2 ^ (nr + k) - 2 ^ nr) := by
  intro k
  induction k with
  | zero => intro nr _; simp [sleep_range]
  | succ m ih =>
    intro nr h
    have hstep : sleep_range nr (m + 1) =
        busy_sleep_us nr + sleep_range (nr + 1) m := rfl
    rw [hstep, ih (nr + 1) (by omega)]
    have hb : busy_sleep_us nr = 100000 * 2 ^ nr := by
      unfold busy_sleep_us
      rw [Nat.mod_eq_of_lt ?_, ← Nat.mul_assoc]
      calc 1000 * (100 * 2 ^ nr) ≤ 1000 * (100 * 2 ^ 15) := by
            have h15 : (2 : Nat) ^ nr ≤ 2 ^ 15 :=
              Nat.pow_le_pow_right (by omega) (by omega)
            exact Nat.mul_le_mul_left 1000 (Nat.mul_le_mul_left 100 h15)
        _ < 2 ^ 32 := by norm_num
    have hx : 2 ^ (nr + 1) = 2 * 2 ^ nr := by rw [pow_succ]; ring
    have hz : nr + 1 + m = nr + (m + 1) := by omega
    have hy : 2 ^ (nr + 1) ≤ 2 ^ (nr + (m + 1)) :=
      Nat.pow_le_pow_right (by omega) (by omega)
    rw [hb, hz]
    omega

/-- C5 (amended): if `umount2` reports `EBUSY` on the first `k` calls
(`k < 19`) and succeeds on call `k+1`, `unmount_all` makes exactly `k+1`
calls, ends with no failure and no exit, and sleeps for
`sleep_range 0 k` microseconds — the sum of the wrapped
`usleep(1000 * waitms)` arguments.  For `k ≤ 16` that total equals the
nominal `1000 * (100*(2^0 + … + 2^(k-1))) = 1000 * 100 * (2^k - 1)`
microseconds, i.e. `100*(2^k - 1)` ms as the original claim states; from
the 17th busy retry on, the 32-bit `useconds_t` product wraps and the
actual sleep is shorter (see the counterexample).  If `umount2` reports
`EBUSY` 19 times the controller stops retrying after the 19 calls,
records the failure, and in strict mode exits the process. -/
theorem C5_unmount_backoff :
    (∀ (f : Nat → UOutcome) (strict : Bool) (k : Nat),
      k < 19 → (∀ i, i < k → f i = UOutcome.busy) → f k = UOutcome.ok →
      unmount_all f strict 20 =
        some ⟨k + 1, sleep_range 0 k, false, false⟩) ∧
    (∀ k, k ≤ 16 → sleep_range 0 k = 1000 * (100 * (2 ^ k - 1))) ∧
    (∀ (f : Nat → UOutcome),
      (∀ i, i < 19 → f i = UOutcome.busy) →
      unmount_all f true 20 = some ⟨19, sleep_range 0 19, true, true⟩) := by
  refine ⟨?_, ?_, ?_⟩
  · intro f strict k hk hbusy hok
    unfold unmount_all
    rw [unmount_loop_busy_run f k 20 ⟨0, 0, 19, 0, false⟩
      (by intro i hi; simpa using hbusy i hi) (by simpa using hk.le) (by omega)]
    have hstate : (⟨0 + k, 0 + k, 19 - k, 0 + sleep_range 0 k,
        false⟩ : UState) = ⟨k, k, 19 - k, sleep_range 0 k, false⟩ := by
      simp
    rw [hstate]
    obtain ⟨fl, hfl⟩ : ∃ fl, 20 - k = fl + 1 := ⟨19 - k, by omega⟩
    rw [hfl]
    have hne : ¬ (⟨k, k, 19 - k, sleep_range 0 k, false⟩ : UState).retry_limit = 0 := by
      show ¬ 19 - k = 0
      omega
    simp only [unmount_loop, if_neg hne]
    rw [hok]
    simp only [Option.map_some]
    have hdec : decide (19 - k = 0) = false := by
      simp only [decide_eq_false_iff_not]
      omega
    simp [hdec]
  · intro k hk
    rw [sleep_range_no_wrap k 0 (by omega)]
    have hx : (2 : Nat) ^ (0 + k) = 2 ^ k := by rw [Nat.zero_add]
    rw [hx]
    have h1 : (1 : Nat) ≤ 2 ^ k := Nat.one_le_two_pow
    have hpow0 : (2 : Nat) ^ 0 = 1 := by norm_num
    rw [hpow0]
    omega
  · intro f hbusy
    unfold unmount_all
    rw [unmount_loop_busy_run f 19 20 ⟨0, 0, 19, 0, false⟩
      (by intro i hi; simpa using hbusy i hi) (by simp) (by omega)]
    simp [unmount_loop]

/-- C5 counterexample: with 17 `EBUSY` outcomes then success, the
controller's accumulated sleep is `8812132704` microseconds — the term
for retry 16 is `(1000 * 100 * 2^16) mod 2^32 = 2258632704` µs ≈ 2258.6 s
instead of the nominal 6553.6 s — which differs from the
`100*(2^17 - 1)` ms = `13107100000` µs total asserted by the original
claim. -/
theorem C5_counterexample :
    unmount_all (fun i => if i < 17 then UOutcome.busy else UOutcome.ok)
        false 20 = some ⟨18, 8812132704, false, false⟩ ∧
    (8812132704 : Nat) ≠ 1000 * (100 * (2 ^ 17 - 1)) := by
  refine ⟨by decide, by decide⟩

/-- C5 witness: one busy attempt then success gives 2 calls and a 100000
µs (100 ms) sleep; at `k = 16` the nominal millisecond formula still
holds; nineteen busy attempts give 19 calls, failure, and a strict
exit. -/
theorem C5_unmount_backoff_witness :
    unmount_all (fun i => if i < 1 then UOutcome.busy else UOutcome.ok) false 20 =
      some ⟨2, 100000, false, false⟩ ∧
    sleep_range 0 16 = 1000 * (100 * (2 ^ 16 - 1)) ∧
    unmount_all (fun _ => UOutcome.busy) true 20 =
      some ⟨19, sleep_range 0 19, true, true⟩ := by
  refine ⟨?_, C5_unmount_backoff.2.1 16 (by omega),
    C5_unmount_backoff.2.2 (fun _ => UOutcome.busy) (fun i _ => rfl)⟩
  have h := C5_unmount_backoff.1
    (fun i => if i < 1 then UOutcome.busy else UOutcome.ok) false 1
    (by omega) (fun i hi => by simp [hi]) (by simp)
  have hs : sleep_range 0 1 = 100000 := by decide
  rw [hs] at h
  simpa using h

lemma unmount_loop_other_diverges :
    ∀ (fuel : Nat) (st : UState), ¬ st.retry_limit = 0 →
      unmount_loop (fun _ => UOutcome.other) fuel st = none := by
  intro fuel
  induction fuel with
  | zero => intro st _; rfl
  | succ fl ih =>
    intro st h
    simp only [unmount_loop, if_neg h]
    exact ih _ h

/-- C6: the claim matches the code's own comment ("Handle non-EBUSY errors
immediately without retrying") but not the code — the non-`EBUSY` branch
sets `has_failure` without breaking out of the loop and without touching
`retry_limit`, so the controller issues another `umount2` call: with a
non-busy error on call 0 and success on call 1 it makes 2 calls (the claim
allows only 1), and if the non-busy error persists the loop never
terminates. -/
theorem C6_nonbusy_no_retry_violated :
    unmount_all (fun i => if i = 0 then UOutcome.other else UOutcome.ok) true 20 =
      some ⟨2, 0, true, true⟩ ∧
    (∀ fuel, unmount_loop (fun _ => UOutcome.other) fuel ⟨0, 0, 19, 0, false⟩ = none) := by
  constructor
  · decide
  · intro fuel
    exact unmount_loop_other_diverges fuel _ (by decide)

/-- Events of the replay driver's main loop, in program order: a
`mountall()` call, a dispatch of one tokenized record, the `seq++`
increment, and a strict `unmount_all` call. -/
inductive REvent (α : Type) where
  | mount
  | dispatch (r : α)
  | seqInc
  | unmountStrict
deriving DecidableEq

/-- The per-record loop of `main` (`replay.c` lines 656–707): for each
record, in order, `mountall()`, dispatch, `seq++`, `unmount_all_strict()`,
threading the sequence counter; returns the emitted event trace and the
final value of `seq`. -/
def replay_loop {α : Type} : List α → Nat → List (REvent α) × Nat
  | [], s => ([], s)
  | r :: rs, s =>
    let rest := replay_loop rs (s + 1)
    (REvent.mount :: REvent.dispatch r :: REvent.seqInc ::
      REvent.unmountStrict :: rest.1, rest.2)

/-- Full event trace of `main`: the bootstrap mount session
(`mountall(); … ; unmount_all_strict()`, lines 628–653) followed by the
per-record loop starting from `seq = 0`. -/
def replay_trace {α : Type} (rs : List α) : List (REvent α) :=
  REvent.mount :: REvent.unmountStrict :: (replay_loop rs 0).1

/-- Mount-session state machine: scanning the trace with the number of
currently active mount sessions, a mount is legal only when no session is
active and an unmount only when exactly one is; the depth therefore never
exceeds one. -/
def depth_ok {α : Type} : Nat → List (REvent α) → Bool
  | _, [] => true
  | d, REvent.mount :: es => (d == 0) && depth_ok 1 es
  | d, REvent.unmountStrict :: es => (d == 1) && depth_ok 0 es
  | d, REvent.dispatch _ :: es => depth_ok d es
  | d, REvent.seqInc :: es => depth_ok d es

def isSeqInc {α : Type} : REvent α → Bool
  | REvent.seqInc => true
  | _ => false

@[simp] lemma isSeqInc_mount {α : Type} : isSeqInc (REvent.mount : REvent α) = false := rfl

@[simp] lemma isSeqInc_dispatch {α : Type} (r : α) : isSeqInc (REvent.dispatch r) = false := rfl

@[simp] lemma isSeqInc_seqInc {α : Type} : isSeqInc (REvent.seqInc : REvent α) = true := rfl

@[simp] lemma isSeqInc_unmount {α : Type} : isSeqInc (REvent.unmountStrict : REvent α) = false := rfl

lemma replay_loop_closed {α : Type} :
    ∀ (rs : List α) (s : Nat),
      (replay_loop rs s).1 = rs.flatMap (fun r =>
        [REvent.mount, REvent.dispatch r, REvent.seqInc, REvent.unmountStrict]) ∧
      (replay_loop rs s).2 = s + rs.length := by
  intro rs
  induction rs with
  | nil => intro s; simp [replay_loop]
  | cons r t ih =>
    intro s
    constructor
    · simp [replay_loop, (ih (s + 1)).1]
    · simp [replay_loop, (ih (s + 1)).2]
      omega

lemma depth_ok_blocks {α : Type} :
    ∀ (rs : List α),
      depth_ok 0 (rs.flatMap (fun r =>
        [REvent.mount, REvent.dispatch r, REvent.seqInc,
          REvent.unmountStrict])) = true := by
  intro rs
  induction rs with
  | nil => rfl
  | cons r t ih =>
    simp only [List.flatMap_cons, List.cons_append, List.nil_append, depth_ok]
    simpa using ih

lemma countP_seqInc_blocks {α : Type} :
    ∀ (rs : List α),
      (rs.flatMap (fun r =>
        [REvent.mount, REvent.dispatch r, REvent.seqInc,
          REvent.unmountStrict])).countP (fun e => isSeqInc e) = rs.length := by
  intro rs
  induction rs with
  | nil => rfl
  | cons r t ih =>
    simp only [List.flatMap_cons, List.cons_append, List.nil_append,
      List.countP_cons, isSeqInc_mount, isSeqInc_dispatch, isSeqInc_seqInc,
      isSeqInc_unmount, ih]
    simp

/-- C7: the replay driver's trace is the bootstrap mount session followed
by one block `mount · dispatch r · seq-increment · strict-unmount` per
record, so every dispatch is immediately preceded by exactly one mount and
followed (after the `seq++`) by exactly one strict unmount; the sequence
counter ends at the number of records (one increment per record); and the
mount-session depth alternates `unmounted → mounted → unmounted` — the
state machine `depth_ok`, which forbids a mount while a session is active,
accepts the whole trace. -/
theorem C7_driver_bracketing {α : Type} (rs : List α) :
    replay_trace rs = REvent.mount :: REvent.unmountStrict ::
      rs.flatMap (fun r => [REvent.mount, REvent.dispatch r, REvent.seqInc,
        REvent.unmountStrict]) ∧
    (replay_loop rs 0).2 = rs.length ∧
    (replay_trace rs).countP (fun e => isSeqInc e) = rs.length ∧
    depth_ok 0 (replay_trace rs) = true := by
  have hc := replay_loop_closed rs 0
  refine ⟨?_, by simpa using hc.2, ?_, ?_⟩
  · unfold replay_trace
    rw [hc.1]
  · unfold replay_trace
    rw [hc.1]
    simp only [List.countP_cons, isSeqInc_mount, isSeqInc_unmount,
      countP_seqInc_blocks rs]
    simp
  · unfold replay_trace
    rw [hc.1]
    simp only [depth_ok]
    simpa using depth_ok_blocks rs

/-- `errno` value `ENOMEM` returned by `vector_expand` when `realloc`
fails. -/
def ENOMEM : Nat := 12

/-- `DEFAULT_INITCAP` of the growable store (`replay.c` line 27). -/
def DEFAULT_INITCAP : Nat := 16

/-- The growable record store: the list of elements held (its length is
`vec->len`) and the current capacity.  The element size plays no role at
this level of abstraction. -/
structure cvec (α : Type) where
  data : List α
  capacity : Nat
deriving DecidableEq

/-- `_vector_init` (`replay.c` lines 57–64): empty store with capacity
`max(initcap, DEFAULT_INITCAP)`. -/
def vector_init (α : Type) (initcap : Nat) : cvec α :=
  ⟨[], if initcap < DEFAULT_INITCAP then DEFAULT_INITCAP else initcap⟩

/-- `vector_add` (`replay.c` lines 84–94): when the store is full it first
calls `vector_expand`, whose `realloc` either succeeds (`ok = true`,
capacity doubles) or fails, in which case `ENOMEM` is returned to the
caller and the store is left unchanged; otherwise the element is appended
and `0` returned. -/
def vector_add {α : Type} (ok : Bool) (v : cvec α) (el : α) : Nat × cvec α :=
  if v.capacity ≤ v.data.length then
    if ok then (0, ⟨v.data ++ [el], v.capacity * 2⟩)
    else (ENOMEM, v)
  else (0, ⟨v.data ++ [el], v.capacity⟩)

/-- The token loop of `extract_fields` threading the record store: each
token is passed to `vector_add`, whose return status the C code *ignores*
(`replay.c` line 139); `exp_ok i` tells whether the `realloc` inside the
`i`-th `vector_add` call would succeed. -/
def extract_v_go (exp_ok : Nat → Bool) :
    Nat → List Char → cvec (List Char) → Nat → cvec (List Char)
  | 0, _, v, _ => v
  | fuel+1, s, v, idx =>
    match strtok_step commaSpace s with
    | none => v
    | some (tok, rest) =>
      extract_v_go exp_ok fuel rest (vector_add (exp_ok idx) v tok).2 (idx + 1)

/-- `extract_fields` with the record store made explicit: initialize the
store, then append a copy of every token, ignoring `vector_add`'s
status. -/
def extract_fields_v (exp_ok : Nat → Bool) (delim line : List Char) :
    cvec (List Char) :=
  let v0 := vector_init (List Char) DEFAULT_INITCAP
  match strtok_step delim line with
  | none => v0
  | some (tok, rest) =>
    extract_v_go exp_ok (rest.length + 1) rest (vector_add (exp_ok 0) v0 tok).2 1

lemma extract_v_go_all_false :
    ∀ (fuel : Nat) (s : List Char) (v : cvec (List Char)) (idx : Nat),
      s.length < fuel → v.capacity = 16 → v.data.length ≤ 16 →
      (extract_v_go (fun _ => false) fuel s v idx).data =
        v.data ++ (extract_rest s).take (16 - v.data.length) := by
  intro fuel
  induction fuel with
  | zero => intro s v idx h _ _; omega
  | succ fl ih =>
    intro s v idx hlen hcap hle
    cases hst : strtok_step commaSpace s with
    | none =>
      simp only [extract_v_go, hst]
      rw [extract_rest_none hst]
      simp
    | some pr =>
      rcases pr with ⟨tok, rest⟩
      have hrest := strtok_step_rest_length_lt _ _ _ _ hst
      simp only [extract_v_go, hst]
      rw [extract_rest_some hst]
      by_cases hfull : v.data.length = 16
      · have hv : (vector_add false v tok).2 = v := by
          unfold vector_add
          rw [if_pos (by omega), if_neg (by simp)]
      
        rw [hv, ih rest v (idx + 1) (by omega) hcap hle]
        rw [hfull]
        simp
      · have hlt : v.data.length < 16 := by omega
        have hv : (vector_add false v tok).2 = ⟨v.data ++ [tok], v.capacity⟩ := by
          unfold vector_add
          rw [if_neg (by omega)]
        rw [hv, ih rest _ (idx + 1) (by omega) (by simpa using hcap)
          (by simp; omega)]
        have htake : (16 : Nat) - v.data.length = (16 - (v.data.length + 1)) + 1 := by
          omega
        rw [htake, List.take_succ_cons]
        simp

/-- C9 (corrected): when the store is full and reallocation fails,
`vector_add` does return `ENOMEM` to its caller and leaves the store
unchanged — but its caller `extract_fields` ignores that return value, so
with a failing allocator every field beyond the initial capacity of 16 is
silently dropped (the store keeps exactly the first 16 tokens) and the
function returns normally instead of aborting the process. -/
theorem C9_store_oom :
    (∀ (α : Type) (v : cvec α) (el : α), v.capacity ≤ v.data.length →
      vector_add false v el = (ENOMEM, v)) ∧
    (∀ line : List Char,
      (extract_fields_v (fun _ => false) commaSpace line).data =
        (extract_fields commaSpace line).take 16) := by
  constructor
  · intro α v el h
    unfold vector_add
    rw [if_pos h, if_neg (by simp)]
  · intro line
    cases hst : strtok_step commaSpace line with
    | none =>
      simp only [extract_fields_v, extract_fields, hst]
      rfl
    | some pr =>
      rcases pr with ⟨tok, rest⟩
      simp only [extract_fields_v, extract_fields, hst]
      have hv1 : (vector_add false (vector_init (List Char) DEFAULT_INITCAP) tok).2 =
          ⟨[tok], 16⟩ := rfl
      rw [hv1]
      rw [extract_v_go_all_false (rest.length + 1) rest ⟨[tok], 16⟩ 1
        (by omega) rfl (by simp)]
      have hr : (tok :: extract_rest rest).take 16 =
          tok :: (extract_rest rest).take 15 := rfl
      rw [hr]
      simp

/-- C9 witness: a full store of 16 one-character fields rejects a 17th
with `ENOMEM` and is unchanged; and on a 17-field line with a failing
allocator the loop keeps only the first 16 fields. -/
theorem C9_store_oom_witness :
    vector_add false (⟨List.replicate 16 (['x'] : List Char), 16⟩ :
        cvec (List Char)) ['y'] =
      (ENOMEM, ⟨List.replicate 16 ['x'], 16⟩) ∧
    (extract_fields_v (fun _ => false) commaSpace
        ("x,x,x,x,x,x,x,x,x,x,x,x,x,x,x,x,x".toList)).data =
      (extract_fields commaSpace
        ("x,x,x,x,x,x,x,x,x,x,x,x,x,x,x,x,x".toList)).take 16 :=
  ⟨C9_store_oom.1 (List Char) _ ['y'] (by simp),
    C9_store_oom.2 ("x,x,x,x,x,x,x,x,x,x,x,x,x,x,x,x,x".toList)⟩

/-- C9 counterexample: tokenizing a 17-field line with a record store
whose reallocation fails drops the 17th token silently — the store ends
with 16 of the 17 fields and `extract_fields` returns normally, so the
out-of-memory condition neither preserves all tokens nor aborts the
process with a non-zero exit. -/
theorem C9_counterexample :
    (extract_fields_v (fun _ => false) commaSpace
        ("x,x,x,x,x,x,x,x,x,x,x,x,x,x,x,x,x".toList)).data.length = 16 ∧
    (extract_fields commaSpace
        ("x,x,x,x,x,x,x,x,x,x,x,x,x,x,x,x,x".toList)).length = 17 := by
  refine ⟨by decide, by decide⟩

/-- `PATH_MAX` (`replay.c` line 30). -/
def PATH_MAX : Nat := 4096

/-- `errno` value `ENAMETOOLONG`. -/
def ENAMETOOLONG : Nat := 36

/-- `errno` value `EEXIST`. -/
def EEXIST : Nat := 17

/-- Filesystem creation primitives issued by `mkdir_p`. -/
inductive FsOp where
  | mkdirOp (path : List Char) (mode : Nat)
  | creatOp (path : List Char) (mode : Nat)
deriving DecidableEq

/-- Result of `mkdir_p`: return value, final `errno`, and the ordered
trace of creation primitives actually issued. -/
structure MkdirpResult where
  ret : Int
  errno : Nat
  trace : List FsOp
deriving DecidableEq

/-- Outcome of the character-scanning loop of `mkdir_p` (`replay.c` lines
553–570): either an early `return -1` or the final flags. -/
inductive MkdirpLoopOut where
  | fail (errno : Nat) (trace : List FsOp)
  | done (errno : Nat) (trace : List FsOp) (next_f next_d : Bool)
deriving DecidableEq

/-- The `for (p = _path + 1; *p; p++)` loop of `mkdir_p`: `cs` is the
remaining suffix of the path starting at index `p`; at each slash the
prefix before it is `mkdir`ed (failure other than `EEXIST` aborts), and
the flags record whether any path component starts with `f` or `d`.
The oracle `fsres` returns 0 for a successful primitive and the `errno`
value otherwise (the primitive leaves `errno` unchanged on success). -/
def mkdir_p_loop (fsres : FsOp → Nat) (path : List Char) (dm : Nat) :
    List Char → Nat → Nat → List FsOp → Bool → Bool → MkdirpLoopOut
  | [], _, e, tr, nf, nd => MkdirpLoopOut.done e tr nf nd
  | c :: cs, p, e, tr, nf, nd =>
    if c = '/' then
      let op := FsOp.mkdirOp (path.take p) dm
      let r := fsres op
      let tr2 := tr ++ [op]
      let e2 := if r = 0 then e else r
      if r ≠ 0 ∧ r ≠ EEXIST then MkdirpLoopOut.fail e2 tr2
      else
        let c1 := path.getD (p + 1) (Char.ofNat 0)
        let nf2 := if c1 = 'f' then true else nf
        let nd2 := if c1 = 'f' then nd else if c1 = 'd' then true else nd
        mkdir_p_loop fsres path dm cs (p + 1) e2 tr2 nf2 nd2
    else
      mkdir_p_loop fsres path dm cs (p + 1) e tr nf nd

/-- The trailing `mkdir` of the whole path when `next_d` is set
(`replay.c` lines 580–586). -/
def mkdir_p_dir (fsres : FsOp → Nat) (path : List Char) (dm : Nat)
    (e : Nat) (tr : List FsOp) (nd : Bool) : MkdirpResult :=
  if nd then
    let op := FsOp.mkdirOp path dm
    let r := fsres op
    let e2 := if r = 0 then e else r
    let tr2 := tr ++ [op]
    if r ≠ 0 ∧ r ≠ EEXIST then ⟨-1, e2, tr2⟩
    else ⟨0, e2, tr2⟩
  else ⟨0, e, tr⟩

/-- The trailing `creat` of the whole path when `next_f` is set, then the
`next_d` step (`replay.c` lines 571–586). -/
def mkdir_p_finish (fsres : FsOp → Nat) (path : List Char) (dm fm : Nat)
    (e : Nat) (tr : List FsOp) (nf nd : Bool) : MkdirpResult :=
  if nf then
    let op := FsOp.creatOp path fm
    let r := fsres op
    let e2 := if r = 0 then e else r
    let tr2 := tr ++ [op]
    if r ≠ 0 ∧ r ≠ EEXIST then ⟨-1, e2, tr2⟩
    else mkdir_p_dir fsres path dm e2 tr2 nd
  else mkdir_p_dir fsres path dm e tr nd

/-- `mkdir_p(path, dir_mode, file_mode)` (`replay.c` lines 535–589):
clear `errno` to 0, reject paths longer than `PATH_MAX - 1` bytes with
`ENAMETOOLONG` before issuing any primitive, otherwise walk the path
creating intermediate directories and the optional terminal file or
directory.  `errno0` is the value `errno` has on entry. -/
def mkdir_p (fsres : FsOp → Nat) (path : List Char) (dm fm : Nat)
    (errno0 : Nat) : MkdirpResult :=
  let e := 0
  if PATH_MAX - 1 < path.length then ⟨-1, ENAMETOOLONG, []⟩
  else
    match mkdir_p_loop fsres path dm (path.drop 1) 1 e [] false false with
    | MkdirpLoopOut.fail e2 tr => ⟨-1, e2, tr⟩
    | MkdirpLoopOut.done e2 tr nf nd => mkdir_p_finish fsres path dm fm e2 tr nf nd

/-- C10: a path longer than `PATH_MAX - 1 = 4095` bytes makes `mkdir_p`
return `-1` with `errno = ENAMETOOLONG` and an empty primitive trace (the
filesystem is untouched); for any path the entry `errno` is first cleared
to 0 — a shorter path proceeds into the scanning loop with `errno = 0`,
and the result never depends on the entry `errno`. -/
theorem C10_mkdir_p_length_guard (fsres : FsOp → Nat) (path : List Char)
    (dm fm errno0 errno1 : Nat) :
    (PATH_MAX - 1 < path.length →
      mkdir_p fsres path dm fm errno0 = ⟨-1, ENAMETOOLONG, []⟩) ∧
    (path.length ≤ PATH_MAX - 1 →
      mkdir_p fsres path dm fm errno0 =
        match mkdir_p_loop fsres path dm (path.drop 1) 1 0 [] false false with
        | MkdirpLoopOut.fail e2 tr => ⟨-1, e2, tr⟩
        | MkdirpLoopOut.done e2 tr nf nd =>
          mkdir_p_finish fsres path dm fm e2 tr nf nd) ∧
    mkdir_p fsres path dm fm errno0 = mkdir_p fsres path dm fm errno1 := by
  refine ⟨?_, ?_, rfl⟩
  · intro h
    unfold mkdir_p
    rw [if_pos h]
  · intro h
    unfold mkdir_p
    rw [if_neg (by omega)]

/-- C10 witness: a 4096-byte path is rejected with `ENAMETOOLONG` and an
empty trace; modes 0755/0644 as in the bootstrap caller. -/
theorem C10_mkdir_p_length_guard_witness :
    mkdir_p (fun _ => 0) (List.replicate 4096 'a') 493 420 5 =
      ⟨-1, 36, []⟩ :=
  (C10_mkdir_p_length_guard (fun _ => 0) (List.replicate 4096 'a')
    493 420 5 7).1 (by rw [List.length_replicate]; norm_num [PATH_MAX])

/-- `isspace` characters skipped by `strtol`/`strtoul`. -/
def isSpaceC (c : Char) : Bool :=
  c = ' ' || c = '\t' || c = '\n' || c = Char.ofNat 11 || c = Char.ofNat 12 || c = '\r'

/-- Value of a digit character in the given base, `none` when the
character is not a digit of that base. -/
def digitVal (base : Nat) (c : Char) : Option Nat :=
  let v : Option Nat :=
    if '0' ≤ c ∧ c ≤ '9' then some (c.toNat - '0'.toNat)
    else if 'a' ≤ c ∧ c ≤ 'z' then some (c.toNat - 'a'.toNat + 10)
    else if 'A' ≤ c ∧ c ≤ 'Z' then some (c.toNat - 'A'.toNat + 10)
    else none
  match v with
  | some d => if d < base then some d else none
  | none => none

/-- Digit-accumulation loop shared by `strtol`/`strtoul`; stops at the
first character that is not a digit of the base. -/
def strtol_digits (base : Nat) : List Char → Nat → Nat
  | [], acc => acc
  | c :: cs, acc =>
    match digitVal base c with
    | some d => strtol_digits base cs (acc * base + d)
    | none => acc

/-- `strtol(s, _, base)`: skip whitespace, optional sign, digits of the
base.  (Clamping of out-of-range values to `LONG_MAX`/`LONG_MIN` is not
modelled; every numeric field the replayer parses is far below it.) -/
def strtol (s : List Char) (base : Nat) : Int :=
  let s1 := s.dropWhile (fun c => isSpaceC c)
  match s1 with
  | '-' :: rest => - (strtol_digits base rest 0 : Int)
  | '+' :: rest => (strtol_digits base rest 0 : Int)
  | _ => (strtol_digits base s1 0 : Int)

/-- `strtoul(s, _, base)`: like `strtol` but a leading minus wraps the
value modulo `2^64` (unsigned long). -/
def strtoul (s : List Char) (base : Nat) : Nat :=
  let s1 := s.dropWhile (fun c => isSpaceC c)
  match s1 with
  | '-' :: rest => (2 ^ 64 - strtol_digits base rest 0 % 2 ^ 64) % 2 ^ 64
  | '+' :: rest => strtol_digits base rest 0
  | _ => strtol_digits base s1 0

/-- The global instance count `n_fs` of the replayer (`replay.c`
line 35). -/
def n_fs : Nat := 1

/-- Arguments `do_write_file` passes to the `write_file` primitive: the
path (field 1), octal flags (field 2), decimal offset (field 4), decimal
length (field 5), and the payload buffer, generated with the
`BYTE_REPEAT` policy and auxiliary value `seq / n_fs` (`replay.c` lines
283–301). -/
structure WriteCall where
  path : List Char
  flags : Int
  offset : Int
  writelen : Nat
  buffer : List (Nat × Nat)
deriving DecidableEq

/-- Argument extraction and payload generation of `do_write_file`
(`replay.c` lines 283–301), for a record tokenized into `argvec`, at
sequence position `seq` with instance count `nfs`. -/
def do_write_file_call (argvec : List (List Char)) (seq nfs : Nat) : WriteCall :=
  let filepath := argvec.getD 1 []
  let flagstr := argvec.getD 2 []
  let offset_str := argvec.getD 4 []
  let len_str := argvec.getD 5 []
  let flags := strtol flagstr 8
  let offset := strtol offset_str 10
  let writelen := strtoul len_str 10
  let integer_to_write : Nat := seq / nfs
  ⟨filepath, flags, offset, writelen,
    generate_data writelen offset.toNat fill_type.BYTE_REPEAT
      (integer_to_write : Int) 0⟩

/-- Return value of the `write_file` primitive (`replay.c` lines
239–267): `-1` if the open or the seek fails, otherwise whatever the
`write` syscall returned. -/
def write_file (openOk seekOk : Bool) (writesz : Int) : Int :=
  if openOk = false then -1
  else if seekOk = false then -1
  else writesz

def fmt_nat (n : Nat) : List Char := Nat.toDigits 10 n

def fmt_oct (n : Nat) : List Char := Nat.toDigits 8 n

def fmt_int (i : Int) : List Char :=
  if i < 0 then '-' :: fmt_nat i.natAbs else fmt_nat i.natAbs

/-- The result line `printf("write_file(%s, %o, %ld, %lu) -> ret=%d,
errno=%s\n", …)` of `do_write_file` (`replay.c` lines 304–305), with the
`strerror` text abstract. -/
def write_result_line (c : WriteCall) (ret : Int) (errStr : List Char) : List Char :=
  ("write_file(".toList) ++ c.path ++ (", ".toList) ++ fmt_oct c.flags.toNat ++
    (", ".toList) ++ fmt_int c.offset ++ (", ".toList) ++ fmt_nat c.writelen ++
    (") -> ret=".toList) ++ fmt_int ret ++ (", errno=".toList) ++ errStr ++ ['\n']

/-- The log line of the C1 scenario. -/
def write_line1 : List Char := "write_file, /d-01/f-00, 02, 0, 4096, 4096".toList

lemma do_write_file_buffer_bytes (argvec : List (List Char)) (s n j : Nat)
    (buf : Nat → Nat) (hj : j < (do_write_file_call argvec s n).writelen) :
    apply_writes buf (do_write_file_call argvec s n).buffer j = s / n % 256 := by
  have hbuf : (do_write_file_call argvec s n).buffer =
      memset_trace 0 ((((s / n : Nat) : Int)) % 256).toNat
        ((do_write_file_call argvec s n).writelen) := rfl
  rw [hbuf, apply_memset, if_pos ⟨by omega, by omega⟩]
  omega

/-- C1 counterexample: the record
`"write_file, /d-01/f-00, 02, 0, 4096, 4096"` is written at the file
offset `do_write_file` parses from the fifth comma-separated field, which
is 4096, not 0 as the claim's scenario states. -/
theorem C1_counterexample :
    (do_write_file_call (extract_fields commaSpace write_line1) 7 n_fs).offset ≠ 0 ∧
    (do_write_file_call (extract_fields commaSpace write_line1) 7 n_fs).offset = 4096 := by
  refine ⟨by decide, by decide⟩

/-- C1 (amended): every replayed `write_file` record at sequence position
`s` with instance count `n` gets a payload generated under the
`BYTE_REPEAT` policy with auxiliary value `s / n`, so all its bytes equal
`(s / n) mod 256`; in particular the record
`"write_file, /d-01/f-00, 02, 0, 4096, 4096"` at sequence index 7 with
instance count 1 writes 4096 bytes all equal to byte value 7 at offset
4096 (the offset field of the record — not offset 0), and when the write
primitive transfers all 4096 bytes the result line contains `ret=4096`. -/
theorem C1_write_dispatch (argvec : List (List Char)) (s n j : Nat)
    (buf : Nat → Nat) (errStr : List Char) :
    (j < (do_write_file_call argvec s n).writelen →
      apply_writes buf (do_write_file_call argvec s n).buffer j = s / n % 256) ∧
    (do_write_file_call (extract_fields commaSpace write_line1) 7 n_fs).offset = 4096 ∧
    (do_write_file_call (extract_fields commaSpace write_line1) 7 n_fs).writelen = 4096 ∧
    (j < 4096 →
      apply_writes buf
        (do_write_file_call (extract_fields commaSpace write_line1) 7 n_fs).buffer j = 7) ∧
    List.IsInfix ("ret=4096".toList)
      (write_result_line
        (do_write_file_call (extract_fields commaSpace write_line1) 7 n_fs)
        (write_file true true 4096) errStr) := by
  refine ⟨fun hj => do_write_file_buffer_bytes argvec s n j buf hj,
    by decide, by decide, ?_, ?_⟩
  · intro hj
    have hlen : (do_write_file_call (extract_fields commaSpace write_line1)
        7 n_fs).writelen = 4096 := by decide
    have h := do_write_file_buffer_bytes (extract_fields commaSpace write_line1)
      7 n_fs j buf (by rw [hlen]; exact hj)
    simpa using h
  · have hpath : (do_write_file_call (extract_fields commaSpace write_line1)
        7 n_fs).path = "/d-01/f-00".toList := by decide
    have hflags : (do_write_file_call (extract_fields commaSpace write_line1)
        7 n_fs).flags = 2 := by decide
    have hoff : (do_write_file_call (extract_fields commaSpace write_line1)
        7 n_fs).offset = 4096 := by decide
    have hlen : (do_write_file_call (extract_fields commaSpace write_line1)
        7 n_fs).writelen = 4096 := by decide
    have hline : write_result_line
        (do_write_file_call (extract_fields commaSpace write_line1) 7 n_fs)
        (write_file true true 4096) errStr =
        (("write_file(/d-01/f-00, 2, 4096, 4096) -> ".toList) ++
          ("ret=4096".toList) ++ (", errno=".toList)) ++ errStr ++ ['\n'] := by
      unfold write_result_line
      rw [hpath, hflags, hoff, hlen]
      have hg : ("write_file(".toList) ++ ("/d-01/f-00".toList) ++ (", ".toList) ++
          fmt_oct ((2 : Int)).toNat ++ (", ".toList) ++ fmt_int 4096 ++
          (", ".toList) ++ fmt_nat 4096 ++ (") -> ret=".toList) ++
          fmt_int (write_file true true 4096) ++ (", errno=".toList) =
          ("write_file(/d-01/f-00, 2, 4096, 4096) -> ".toList) ++
            ("ret=4096".toList) ++ (", errno=".toList) := by decide
      rw [hg]
    rw [hline]
    exact ⟨"write_file(/d-01/f-00, 2, 4096, 4096) -> ".toList,
      (", errno=".toList) ++ errStr ++ ['\n'], by simp⟩

/-- C1 witness: byte 5 of the scenario's payload buffer is 7, and the
result line of a fully successful write contains `ret=4096`. -/
theorem C1_write_dispatch_witness :
    apply_writes (fun _ => 0)
      (do_write_file_call (extract_fields commaSpace write_line1) 7 n_fs).buffer 5 = 7 ∧
    List.IsInfix ("ret=4096".toList)
      (write_result_line
        (do_write_file_call (extract_fields commaSpace write_line1) 7 n_fs)
        (write_file true true 4096) []) := by
  have h := C1_write_dispatch (extract_fields commaSpace write_line1) 7 n_fs 5
    (fun _ => 0) []
  exact ⟨h.2.2.2.1 (by omega), h.2.2.2.2⟩
